import Mathlib

/-!
Shallow embedding of the Monte Carlo Tree Search engine in `mcts.py`
(class `MCTS` and the abstract `Node` contract), together with proofs of
the specified properties.

Modelling conventions:
* A Python `dict` is an association list `List (σ × α)`; insertion order is
  preserved, keys are unique in every dict the code builds.  Lookup takes the
  first matching entry.
* A `defaultdict(int)` read `d[k]` returns the stored value, or `0` while
  inserting the key `k` with value `0` when it is absent (auto-vivification);
  `d[k] += v` updates the stored entry in place or appends `(k, v)`.
* A Python `set` of states is a `List σ`; the unspecified iteration order of
  a hash set is modelled by the list order, `set.pop()` by taking the head,
  and `max(s, key=f)` by a fold that keeps the earliest maximal element,
  which is CPython's behaviour.
* Exceptions are an explicit `PyErr` value in an `Except` result; functions
  that additionally mutate the engine return the engine they leave behind.
* The abstract `Node` contract (find_children / find_random_child /
  is_terminal / reward) is a `Game σ` record of functions; rewards are
  rationals (the code's arithmetic on them is exact: `1 - r`, `+`, `/`).
* `math.log` / `math.sqrt` in `uct_select` are modelled by `Real.log` /
  `Real.sqrt`; that one scoring function is therefore noncomputable, and
  every other definition stays executable.
-/

namespace MctsSpec

set_option linter.unusedSectionVars false
set_option linter.unusedVariables false
set_option linter.deprecated false

variable {σ : Type} [DecidableEq σ] {α : Type}

/-- The Python exceptions the engine can raise. -/
inductive PyErr where
  /-- `AttributeError`: attribute missing on an object (in particular
  `self._uct_select`, which does not exist, and method access on `None`). -/
  | attributeError
  /-- `KeyError`: plain-dict subscript on a missing key. -/
  | keyError
  /-- `ValueError`: `max()` of an empty iterable, or `math.log(0)`. -/
  | valueError
  /-- `AssertionError`: a failed `assert`. -/
  | assertionError
  /-- `ZeroDivisionError`: division by an integer zero. -/
  | zeroDivisionError
  /-- `RuntimeError`: raised by `choose` on a terminal node. -/
  | runtimeError
  /-- `IndexError`: subscript out of range on a list. -/
  | indexError
  /-- Fuel exhaustion: stands for a random playout that never reaches a
  terminal state (the Python loop would not return). -/
  | fuelExhausted
  deriving DecidableEq, Repr

/-- First value stored under key `k`, if any (`k in d` and `d[k]` on a plain
dict read this). -/
def dFind (l : List (σ × α)) (k : σ) : Option α :=
  match l with
  | [] => none
  | p :: rest => if p.1 = k then some p.2 else dFind rest k

/-- Value under `k` with default `d` (what a `defaultdict` read returns). -/
def dGetD (l : List (σ × α)) (k : σ) (d : α) : α :=
  (dFind l k).getD d

/-- `k in d`. -/
def dMem (l : List (σ × α)) (k : σ) : Bool :=
  (dFind l k).isSome

/-- Auto-vivification of a `defaultdict` read: a read of `d[k]` inserts
`(k, v₀)` when `k` is absent and changes nothing otherwise. -/
def dIns (l : List (σ × α)) (k : σ) (v₀ : α) : List (σ × α) :=
  match l with
  | [] => [(k, v₀)]
  | p :: rest => if p.1 = k then p :: rest else p :: dIns rest k v₀

/-- `d[k] += v` on a `defaultdict` with default `0`: update the entry in
place, or append `(k, 0 + v)` (written `(k, v)`) when absent. -/
def dAdd [Add α] (l : List (σ × α)) (k : σ) (v : α) : List (σ × α) :=
  match l with
  | [] => [(k, v)]
  | p :: rest => if p.1 = k then (p.1, p.2 + v) :: rest else p :: dAdd rest k v

/-- The state-capability contract of the abstract `Node` class: children
enumeration, random-child sampling (`none` models Python `None`),
terminality and terminal reward. -/
structure Game (σ : Type) where
  find_children : σ → List σ
  find_random_child : σ → Option σ
  is_terminal : σ → Bool
  reward : σ → ℚ

/-- The `MCTS` object: total rewards `Q`, visit counts `N` (both
`defaultdict(int)`), the plain `children` dict, and the exploration weight.
`fc` is ghost instrumentation recording, in order, every state on which
`find_children` has been invoked; it shadows no source field and no
operation reads it. -/
structure MCTS (σ : Type) where
  Q : List (σ × ℚ)
  N : List (σ × ℕ)
  children : List (σ × List σ)
  exploration_weight : ℝ
  fc : List σ

/-- `MCTS.__init__`: empty statistics. -/
def MCTS.init (ew : ℝ) : MCTS σ :=
  ⟨[], [], [], ew, []⟩

/-- The score closure inside `choose`: `-inf` (modelled by `⊥` in
`WithBot ℚ`) for an unvisited node, else the mean reward `Q[n] / N[n]`. -/
def MCTS.chooseScore (t : MCTS σ) (n : σ) : WithBot ℚ :=
  if dGetD t.N n 0 = 0 then ⊥
  else ((dGetD t.Q n 0 / ((dGetD t.N n 0 : ℕ) : ℚ) : ℚ) : WithBot ℚ)

/-- Python's `max(x :: xs, key=f)`: fold keeping the earliest element whose
key is maximal. -/
def argmaxFold {β : Type} [LT β] [DecidableRel (fun a b : β => a < b)]
    (f : σ → β) (x : σ) (xs : List σ) : σ :=
  xs.foldl (fun b a => if f b < f a then a else b) x

/-- The `defaultdict` keys touched by scoring in `choose`: `score n` always
reads `N[n]`, and reads `Q[n]` only when `N[n] ≠ 0`. -/
def MCTS.chooseTouch (t : MCTS σ) (cs : List σ) : MCTS σ :=
  { t with
    N := cs.foldl (fun d n => dIns d n 0) t.N
    Q := cs.foldl (fun d n => if dGetD t.N n 0 = 0 then d else dIns d n 0) t.Q }

/-- `MCTS.choose`: raise on a terminal node; return a random child of an
unexpanded node; otherwise the child of maximal mean reward.  Returns the
chosen node (`Option σ`, since `find_random_child` may yield `None`)
together with the engine left behind. -/
def MCTS.choose (g : Game σ) (t : MCTS σ) (node : σ) :
    Except PyErr (Option σ) × MCTS σ :=
  if g.is_terminal node then (.error .runtimeError, t)
  else
    match dFind t.children node with
    | none => (.ok (g.find_random_child node), t)
    | some cs =>
      match cs with
      | [] => (.error .valueError, t)
      | x :: xs => (.ok (some (argmaxFold t.chooseScore x xs)), t.chooseTouch cs)

/-- `MCTS._select`.  The loop body either returns a path or raises on its
first iteration: when every candidate child is already expanded the code
executes `node = self._uct_select(node)`, and the class defines
`uct_select`, not `_uct_select`, so that line raises `AttributeError`
before the loop can repeat.  `_select` mutates nothing (it reads only the
plain `children` dict). -/
def MCTS.select (t : MCTS σ) (node : σ) : Except PyErr (List σ) :=
  match dFind t.children node with
  | none => .ok [node]
  | some cs =>
    if cs = [] then .ok [node]
    else
      match cs.filter (fun c => ¬ dMem t.children c) with
      | [] => .error .attributeError
      | c :: _ => .ok [node, c]

/-- `MCTS._expand`: a no-op on an already-expanded node; otherwise store
`find_children(node)` (and record the invocation in the ghost log). -/
def MCTS.expand (g : Game σ) (t : MCTS σ) (node : σ) : MCTS σ :=
  if dMem t.children node then t
  else { t with
         children := t.children ++ [(node, g.find_children node)]
         fc := t.fc ++ [node] }

/-- `MCTS._simulate`'s loop, with fuel standing for the number of remaining
iterations the playout is allowed.  A `None` child makes the next
`node.is_terminal()` call raise `AttributeError`. -/
def simulateLoop (g : Game σ) : σ → Bool → ℕ → Except PyErr ℚ
  | _, _, 0 => .error .fuelExhausted
  | node, invert, fuel + 1 =>
    if g.is_terminal node then
      .ok (if invert then 1 - g.reward node else g.reward node)
    else
      match g.find_random_child node with
      | none => .error .attributeError
      | some n => simulateLoop g n (!invert) fuel

/-- `MCTS._simulate`: random playout with `invert_reward` starting `True`. -/
def MCTS.simulate (g : Game σ) (t : MCTS σ) (node : σ) (fuel : ℕ) :
    Except PyErr ℚ :=
  let _ := t
  simulateLoop g node true fuel

/-- `MCTS._backpropagate`'s loop over `reversed(path)`: the first list
element is the leaf; each step adds one visit and the current reward, then
inverts the reward. -/
def backpropList (t : MCTS σ) : List σ → ℚ → MCTS σ
  | [], _ => t
  | n :: rest, r =>
    backpropList { t with N := dAdd t.N n 1, Q := dAdd t.Q n r } rest (1 - r)

/-- `MCTS._backpropagate(path, reward)`: walk the path leaf-to-root. -/
def MCTS.backpropagate (t : MCTS σ) (path : List σ) (r : ℚ) : MCTS σ :=
  backpropList t path.reverse r

/-- `MCTS.do_rollout`: select, expand the leaf (`path[-1]`), simulate from
it, backpropagate.  An exception in a phase propagates, leaving the
mutations of the phases already completed in place. -/
def MCTS.do_rollout (g : Game σ) (t : MCTS σ) (node : σ) (fuel : ℕ) :
    Except PyErr Unit × MCTS σ :=
  match t.select node with
  | .error e => (.error e, t)
  | .ok path =>
    match path.getLast? with
    | none => (.error .indexError, t)
    | some leaf =>
      let t1 := t.expand g leaf
      match t1.simulate g leaf fuel with
      | .error e => (.error e, t1)
      | .ok r => (.ok (), t1.backpropagate path r)

/-- The UCT score of child `c` under node `node` (the `uct` closure of
`uct_select`): mean reward plus the exploration bound
`exploration_weight * sqrt(log N[node] / N[c])`.  Real-valued because the
Python code computes it with `math.log` and `math.sqrt`. -/
noncomputable def MCTS.uctVal (t : MCTS σ) (node c : σ) : ℝ :=
  ((dGetD t.Q c 0 : ℚ) : ℝ) / ((dGetD t.N c 0 : ℕ) : ℝ) +
    t.exploration_weight *
      Real.sqrt (Real.log ((dGetD t.N node 0 : ℕ) : ℝ) / ((dGetD t.N c 0 : ℕ) : ℝ))

open Classical in
/-- `MCTS.uct_select`: assert that every recorded child is expanded, take
`math.log(N[node])` (a `ValueError` when `N[node] = 0`), then
`max(children[node], key=uct)`.  The first scored child with `N = 0` raises
`ZeroDivisionError` at `Q[n] / N[n]`; an empty children set raises
`ValueError` from `max`.  The `defaultdict` keys touched during scoring are
not modelled here: no property below reads the engine after this call. -/
noncomputable def MCTS.uct_select (t : MCTS σ) (node : σ) : Except PyErr σ :=
  match dFind t.children node with
  | none => .error .keyError
  | some cs =>
    if ¬ (∀ c ∈ cs, dMem t.children c) then .error .assertionError
    else if dGetD t.N node 0 = 0 then .error .valueError
    else
      match cs with
      | [] => .error .valueError
      | x :: xs =>
        if (x :: xs).any (fun c => dGetD t.N c 0 = 0) then .error .zeroDivisionError
        else .ok (argmaxFold (t.uctVal node) x xs)

/-! ### Association-list lemmas -/

theorem dFind_dIns (l : List (σ × α)) (k x : σ) (v₀ : α) :
    dFind (dIns l k v₀) x =
      if x = k then some ((dFind l x).getD v₀) else dFind l x := by
  induction l with
  | nil => simp [dIns, dFind, eq_comm]
  | cons p rest ih =>
    obtain ⟨a, b⟩ := p
    by_cases hp : a = k
    · subst hp
      have h1 : dIns ((a, b) :: rest) a v₀ = (a, b) :: rest := by simp [dIns]
      rw [h1]
      by_cases hx : x = a
      · subst hx
        simp [dFind]
      · have hax : ¬(a = x) := fun h => hx h.symm
        simp [dFind, hax, hx]
    · have h1 : dIns ((a, b) :: rest) k v₀ = (a, b) :: dIns rest k v₀ := by
        simp [dIns, hp]
      rw [h1]
      by_cases hx : a = x
      · subst hx
        have hxk : ¬(a = k) := hp
        simp [dFind, hxk]
      · simp [dFind, hx, ih]

theorem dGetD_dIns (l : List (σ × α)) (k x : σ) (d : α) :
    dGetD (dIns l k d) x d = dGetD l x d := by
  unfold dGetD
  rw [dFind_dIns]
  by_cases hx : x = k
  · subst hx
    simp only [if_pos]
    cases dFind l x <;> simp
  · simp [hx]

theorem dFind_dAdd [AddZeroClass α] (l : List (σ × α)) (k x : σ) (v : α) :
    dFind (dAdd l k v) x =
      if x = k then some ((dFind l k).getD 0 + v) else dFind l x := by
  induction l with
  | nil =>
    by_cases hx : x = k
    · subst hx
      simp [dAdd, dFind]
    · have hkx : ¬(k = x) := fun h => hx h.symm
      simp [dAdd, dFind, hx, hkx]
  | cons p rest ih =>
    obtain ⟨a, b⟩ := p
    by_cases hp : a = k
    · subst hp
      have h1 : dAdd ((a, b) :: rest) a v = (a, b + v) :: rest := by simp [dAdd]
      rw [h1]
      by_cases hx : x = a
      · subst hx
        simp [dFind]
      · have hax : ¬(a = x) := fun h => hx h.symm
        simp [dFind, hax, hx]
    · have h1 : dAdd ((a, b) :: rest) k v = (a, b) :: dAdd rest k v := by
        simp [dAdd, hp]
      rw [h1]
      by_cases hx : a = x
      · subst hx
        have hxk : ¬(a = k) := hp
        simp [dFind, hxk]
      · simp [dFind, hx, hp, ih]

theorem dGetD_dAdd_self [AddZeroClass α] (l : List (σ × α)) (k : σ) (v : α) :
    dGetD (dAdd l k v) k 0 = dGetD l k 0 + v := by
  unfold dGetD
  rw [dFind_dAdd, if_pos rfl]
  cases dFind l k <;> simp

theorem dGetD_dAdd_ne [AddZeroClass α] (l : List (σ × α)) (k x : σ) (v : α)
    (h : x ≠ k) : dGetD (dAdd l k v) x 0 = dGetD l x 0 := by
  unfold dGetD
  rw [dFind_dAdd, if_neg h]

theorem dFind_append_single (l : List (σ × α)) (k x : σ) (v : α) :
    dFind (l ++ [(k, v)]) x =
      if (dFind l x).isSome then dFind l x
      else if x = k then some v else none := by
  induction l with
  | nil => simp [dFind, eq_comm]
  | cons p rest ih =>
    by_cases hx : p.1 = x <;> simp [dFind, hx, ih]

/-! ### Argmax lemmas (Python `max(_, key=f)`) -/

theorem argmaxFold_mem {β : Type} [LinearOrder β] (f : σ → β) (x : σ)
    (xs : List σ) : argmaxFold f x xs ∈ x :: xs := by
  induction xs generalizing x with
  | nil => simp [argmaxFold]
  | cons a xs ih =>
    have hstep : argmaxFold f x (a :: xs) =
        argmaxFold f (if f x < f a then a else x) xs := rfl
    rw [hstep]
    rcases List.mem_cons.1 (ih (if f x < f a then a else x)) with h1 | h1
    · rw [h1]
      by_cases hlt : f x < f a
      · rw [if_pos hlt]
        exact List.mem_cons_of_mem _ (List.mem_cons_self a xs)
      · rw [if_neg hlt]
        exact List.mem_cons_self x _
    · exact List.mem_cons_of_mem _ (List.mem_cons_of_mem _ h1)

theorem le_argmaxFold {β : Type} [LinearOrder β] (f : σ → β) (x : σ)
    (xs : List σ) : ∀ d ∈ x :: xs, f d ≤ f (argmaxFold f x xs) := by
  induction xs generalizing x with
  | nil =>
    intro d hd
    simp at hd
    simp [argmaxFold, hd]
  | cons a xs ih =>
    intro d hd
    have hx' : f x ≤ f (if f x < f a then a else x) := by
      by_cases hlt : f x < f a
      · rw [if_pos hlt]; exact le_of_lt hlt
      · rw [if_neg hlt]
    have ha' : f a ≤ f (if f x < f a then a else x) := by
      by_cases hlt : f x < f a
      · rw [if_pos hlt]
      · rw [if_neg hlt]; exact le_of_not_lt hlt
    have hy' : f (if f x < f a then a else x) ≤
        f (argmaxFold f (if f x < f a then a else x) xs) :=
      ih (if f x < f a then a else x) _ (List.mem_cons_self _ _)
    have hstep : argmaxFold f x (a :: xs) =
        argmaxFold f (if f x < f a then a else x) xs := rfl
    rw [hstep]
    rcases List.mem_cons.1 hd with h1 | h1
    · rw [h1]
      exact le_trans hx' hy'
    rcases List.mem_cons.1 h1 with h2 | h2
    · rw [h2]
      exact le_trans ha' hy'
    · exact ih (if f x < f a then a else x) d (List.mem_cons_of_mem _ h2)

/-! ### Frame lemmas for `choose` -/

theorem foldl_dIns_getD (cs : List σ) (l : List (σ × α)) (x : σ) (d : α) :
    dGetD (cs.foldl (fun acc n => dIns acc n d) l) x d = dGetD l x d := by
  induction cs generalizing l with
  | nil => rfl
  | cons c cs ih => rw [List.foldl_cons, ih, dGetD_dIns]

theorem foldl_dIns_ite_getD (cs : List σ) (c : σ → Prop) [DecidablePred c]
    (l : List (σ × α)) (x : σ) (d : α) :
    dGetD (cs.foldl (fun acc n => if c n then acc else dIns acc n d) l) x d =
      dGetD l x d := by
  induction cs generalizing l with
  | nil => rfl
  | cons n cs ih =>
    rw [List.foldl_cons, ih]
    by_cases hn : c n
    · rw [if_pos hn]
    · rw [if_neg hn, dGetD_dIns]

theorem chooseTouch_frame (t : MCTS σ) (cs : List σ) (x : σ) :
    dGetD (t.chooseTouch cs).N x 0 = dGetD t.N x 0 ∧
    dGetD (t.chooseTouch cs).Q x 0 = dGetD t.Q x 0 ∧
    (t.chooseTouch cs).children = t.children ∧
    (t.chooseTouch cs).fc = t.fc := by
  refine ⟨foldl_dIns_getD cs t.N x 0, ?_, rfl, rfl⟩
  exact foldl_dIns_ite_getD cs (fun n => dGetD t.N n 0 = 0) t.Q x 0

theorem choose_snd_frame (g : Game σ) (t : MCTS σ) (s : σ) :
    (∀ x, dGetD ((t.choose g s).2).N x 0 = dGetD t.N x 0 ∧
          dGetD ((t.choose g s).2).Q x 0 = dGetD t.Q x 0) ∧
    ((t.choose g s).2).children = t.children ∧
    ((t.choose g s).2).fc = t.fc := by
  by_cases hterm : g.is_terminal s
  · simp [MCTS.choose, hterm]
  · cases hfind : dFind t.children s with
    | none => simp [MCTS.choose, hterm, hfind]
    | some cs =>
      cases cs with
      | nil => simp [MCTS.choose, hterm, hfind]
      | cons x xs =>
        have h2 : (t.choose g s).2 = t.chooseTouch (x :: xs) := by
          simp [MCTS.choose, hterm, hfind]
        rw [h2]
        exact ⟨fun y => ⟨(chooseTouch_frame t (x :: xs) y).1,
                         (chooseTouch_frame t (x :: xs) y).2.1⟩,
               (chooseTouch_frame t (x :: xs) x).2.2.1,
               (chooseTouch_frame t (x :: xs) x).2.2.2⟩

theorem chooseScore_eq_bot_iff (t : MCTS σ) (n : σ) :
    t.chooseScore n = ⊥ ↔ dGetD t.N n 0 = 0 := by
  unfold MCTS.chooseScore
  by_cases h : dGetD t.N n 0 = 0
  · simp [h]
  · simp [h]

/-! ### Claim C2 -/

/-- A state contract used by concrete instances below: every state is
non-terminal, has no recorded children and no random child. -/
def gameA : Game ℕ :=
  { find_children := fun _ => []
    find_random_child := fun _ => none
    is_terminal := fun _ => false
    reward := fun _ => 0 }

/-- An engine that has expanded state `0` with the single child `1`, has
visited `0` once, and has never seen state `1` in `N` or `Q`. -/
def engineA : MCTS ℕ :=
  ⟨[(0, 1)], [(0, 1)], [(0, [1])], 1, [0]⟩

/-- C2 counterexample: `choose` on an expanded node with a zero-visit child
inserts that child into the visit-count defaultdict `N` (auto-vivification
by the scoring read `self.N[n]`), so the key set of `N` is not exactly as
it was before the call. -/
theorem choose_changes_N_keys :
    ((engineA.choose gameA 0).2).N ≠ engineA.N := by decide

/-- C2 (amended): `choose` performs no observable mutation — the `children`
dict is exactly as before and every lookup of `N` and `Q` returns the same
value as before — though the defaultdict reads made while scoring children
may insert missing keys with the default value `0`, so the key sets of `N`
and `Q` need not be preserved. -/
theorem choose_no_observable_mutation (g : Game σ) (t : MCTS σ) (s : σ) :
    (∀ x, dGetD ((t.choose g s).2).N x 0 = dGetD t.N x 0 ∧
          dGetD ((t.choose g s).2).Q x 0 = dGetD t.Q x 0) ∧
    ((t.choose g s).2).children = t.children :=
  ⟨(choose_snd_frame g t s).1, (choose_snd_frame g t s).2.1⟩

/-! ### Claim C5 -/

/-- A state contract whose every state is terminal with reward `1`. -/
def gameB : Game ℕ :=
  { find_children := fun _ => []
    find_random_child := fun _ => none
    is_terminal := fun _ => true
    reward := fun _ => 1 }

/-- An engine with nontrivial accumulated statistics. -/
def engineB : MCTS ℕ :=
  ⟨[(0, 2)], [(0, 3)], [(0, [1])], 1, [0]⟩

/-- C5: on a terminal state, `choose` raises the invalid-operation error
(`RuntimeError`) on every engine, whatever its accumulated statistics, and
returns the engine completely unchanged. -/
theorem choose_terminal_raises (g : Game σ) (t : MCTS σ) (s : σ)
    (h : g.is_terminal s = true) :
    t.choose g s = (.error .runtimeError, t) := by
  simp [MCTS.choose, h]

/-- C5 witness: a concrete terminal state on a concrete engine. -/
theorem choose_terminal_raises_witness :
    gameB.is_terminal 0 = true ∧
    engineB.choose gameB 0 = (.error .runtimeError, engineB) :=
  ⟨rfl, choose_terminal_raises gameB engineB 0 rfl⟩

/-! ### Claim C6 -/

/-- C6: on a non-terminal state recorded in `children` with a non-empty
children set, `choose` returns a child maximizing the mean-reward score
(zero-visit children scoring `-inf`), and a zero-visit child is never
returned when some child has been visited. -/
theorem choose_picks_best_child (g : Game σ) (t : MCTS σ) (s x : σ)
    (xs : List σ) (hterm : g.is_terminal s = false)
    (hfind : dFind t.children s = some (x :: xs)) :
    ∃ c, (t.choose g s).1 = .ok (some c) ∧ c ∈ x :: xs ∧
      (∀ d ∈ x :: xs, t.chooseScore d ≤ t.chooseScore c) ∧
      ((∃ d ∈ x :: xs, 0 < dGetD t.N d 0) → 0 < dGetD t.N c 0) := by
  refine ⟨argmaxFold t.chooseScore x xs, ?_, argmaxFold_mem _ _ _,
          le_argmaxFold _ _ _, ?_⟩
  · simp [MCTS.choose, hterm, hfind]
  · rintro ⟨d, hd, hdpos⟩
    by_contra hc
    have hc0 : dGetD t.N (argmaxFold t.chooseScore x xs) 0 = 0 := by omega
    have hbot : t.chooseScore (argmaxFold t.chooseScore x xs) = ⊥ :=
      (chooseScore_eq_bot_iff t _).mpr hc0
    have hle := le_argmaxFold t.chooseScore x xs d hd
    rw [hbot] at hle
    have hdbot : t.chooseScore d = ⊥ := le_bot_iff.mp hle
    have hd0 : dGetD t.N d 0 = 0 := (chooseScore_eq_bot_iff t d).mp hdbot
    omega

/-- An engine in which state `0` is expanded with children `1` and `2`,
child `1` has one visit and total reward `1`, child `2` is unvisited. -/
def engineC : MCTS ℕ :=
  ⟨[(1, 1)], [(0, 1), (1, 1)], [(0, [1, 2])], 1, [0]⟩

/-- C6 witness: a concrete expanded node with a visited and an unvisited
child. -/
theorem choose_picks_best_child_witness :
    gameA.is_terminal 0 = false ∧
    dFind engineC.children 0 = some [1, 2] ∧
    (∃ c, (engineC.choose gameA 0).1 = .ok (some c) ∧ c ∈ [1, 2] ∧
      (∀ d ∈ [1, 2], engineC.chooseScore d ≤ engineC.chooseScore c) ∧
      ((∃ d ∈ [1, 2], 0 < dGetD engineC.N d 0) →
        0 < dGetD engineC.N c 0)) :=
  ⟨rfl, by decide, choose_picks_best_child gameA engineC 0 1 [2] rfl (by decide)⟩

/-! ### Backpropagation lemmas -/

theorem backpropList_frame (t : MCTS σ) (l : List σ) (r : ℚ) :
    (backpropList t l r).children = t.children ∧
    (backpropList t l r).fc = t.fc ∧
    (backpropList t l r).exploration_weight = t.exploration_weight := by
  induction l generalizing t r with
  | nil => exact ⟨rfl, rfl, rfl⟩
  | cons n rest ih =>
    exact ih { t with N := dAdd t.N n 1, Q := dAdd t.Q n r } (1 - r)

theorem backpropList_notMem (t : MCTS σ) (l : List σ) (r : ℚ) (s : σ)
    (h : s ∉ l) :
    dGetD (backpropList t l r).N s 0 = dGetD t.N s 0 ∧
    dGetD (backpropList t l r).Q s 0 = dGetD t.Q s 0 := by
  induction l generalizing t r with
  | nil => exact ⟨rfl, rfl⟩
  | cons n rest ih =>
    have hs : s ≠ n := fun hh => h (hh ▸ List.mem_cons_self n rest)
    have h2 : s ∉ rest := fun hh => h (List.mem_cons_of_mem n hh)
    have h3 := ih { t with N := dAdd t.N n 1, Q := dAdd t.Q n r } (1 - r) h2
    exact ⟨h3.1.trans (dGetD_dAdd_ne t.N n s 1 hs),
           h3.2.trans (dGetD_dAdd_ne t.Q n s r hs)⟩

theorem backpropList_get (t : MCTS σ) (l : List σ) (r : ℚ) (hnd : l.Nodup) :
    ∀ i (hi : i < l.length),
      dGetD (backpropList t l r).N (l.get ⟨i, hi⟩) 0 =
        dGetD t.N (l.get ⟨i, hi⟩) 0 + 1 ∧
      dGetD (backpropList t l r).Q (l.get ⟨i, hi⟩) 0 =
        dGetD t.Q (l.get ⟨i, hi⟩) 0 + (if i % 2 = 0 then r else 1 - r) := by
  induction l generalizing t r with
  | nil => intro i hi; simp at hi
  | cons n rest ih =>
    intro i hi
    have hn : n ∉ rest := (List.nodup_cons.mp hnd).1
    have hnd' : rest.Nodup := (List.nodup_cons.mp hnd).2
    cases i with
    | zero =>
      have hfin := backpropList_notMem
        { t with N := dAdd t.N n 1, Q := dAdd t.Q n r } rest (1 - r) n hn
      exact ⟨hfin.1.trans (dGetD_dAdd_self t.N n 1),
             hfin.2.trans (dGetD_dAdd_self t.Q n r)⟩
    | succ i =>
      have hi' : i < rest.length := by simpa using hi
      have hne : rest.get ⟨i, hi'⟩ ≠ n :=
        fun hh => hn (hh ▸ rest.get_mem i hi')
      have h3 := ih { t with N := dAdd t.N n 1, Q := dAdd t.Q n r }
        (1 - r) hnd' i hi'
      dsimp only at h3
      rw [dGetD_dAdd_ne t.N n _ 1 hne, dGetD_dAdd_ne t.Q n _ r hne] at h3
      have h4 : dGetD t.Q (rest.get ⟨i, hi'⟩) 0 +
            (if i % 2 = 0 then 1 - r else 1 - (1 - r)) =
          dGetD t.Q (rest.get ⟨i, hi'⟩) 0 +
            (if (i + 1) % 2 = 0 then r else 1 - r) := by
        congr 1
        by_cases hpar : i % 2 = 0
        · rw [if_pos hpar, if_neg (by omega)]
        · rw [if_neg hpar, if_pos (by omega)]
          ring
      exact ⟨h3.1, h3.2.trans h4⟩

/-! ### Claim C3 -/

/-- C3: on a path of pairwise-distinct states, `_backpropagate(path, r)`
adds exactly one visit to each state on the path and adds `r` to the
accumulated reward of the states at even distance from the leaf
(`path[-1]`, the last list element, at distance `0`) and `1 - r` at odd
distance, while the statistics of every state off the path are unchanged;
`N` and `Q` change together for every state on the path. -/
theorem backpropagate_updates_path (t : MCTS σ) (path : List σ) (r : ℚ)
    (hnd : path.Nodup) :
    (∀ i (hi : i < path.length),
      dGetD (t.backpropagate path r).N (path.get ⟨i, hi⟩) 0 =
        dGetD t.N (path.get ⟨i, hi⟩) 0 + 1 ∧
      dGetD (t.backpropagate path r).Q (path.get ⟨i, hi⟩) 0 =
        dGetD t.Q (path.get ⟨i, hi⟩) 0 +
          (if (path.length - 1 - i) % 2 = 0 then r else 1 - r)) ∧
    (∀ s, s ∉ path →
      dGetD (t.backpropagate path r).N s 0 = dGetD t.N s 0 ∧
      dGetD (t.backpropagate path r).Q s 0 = dGetD t.Q s 0) := by
  constructor
  · intro i hi
    have hj : path.length - 1 - i < path.reverse.length := by
      rw [List.length_reverse]; omega
    have hget : path.reverse.get ⟨path.length - 1 - i, hj⟩ =
        path.get ⟨i, hi⟩ := List.get_reverse path i hj hi
    have h3 := backpropList_get t path.reverse r
      (List.nodup_reverse.mpr hnd) (path.length - 1 - i) hj
    rw [hget] at h3
    exact h3
  · intro s hs
    exact backpropList_notMem t path.reverse r s
      (fun hh => hs (List.mem_reverse.mp hh))

/-- C3 witness: the root of the concrete path `[0, 1, 2]` with reward `1`
on a fresh engine gains one visit and reward `1` (distance `2` from the
leaf, an even number of inversions). -/
theorem backpropagate_updates_path_witness :
    ([0, 1, 2] : List ℕ).Nodup ∧
    (dGetD ((MCTS.init 1).backpropagate [0, 1, 2] 1).N 0 0 =
        dGetD (MCTS.init (σ := ℕ) 1).N 0 0 + 1 ∧
      dGetD ((MCTS.init 1).backpropagate [0, 1, 2] 1).Q 0 0 =
        dGetD (MCTS.init (σ := ℕ) 1).Q 0 0 +
          (if (([0, 1, 2] : List ℕ).length - 1 - 0) % 2 = 0 then 1 else 1 - 1)) :=
  ⟨by decide,
   (backpropagate_updates_path (MCTS.init 1) [0, 1, 2] 1 (by decide)).1 0
     (by decide)⟩

/-! ### Simulation lemmas and claim C4 -/

theorem simulateLoop_chain (g : Game σ) (f : ℕ → σ) (k : ℕ) :
    ∀ (inv : Bool) (fuel : ℕ),
      (∀ j < k, g.is_terminal (f j) = false ∧
        g.find_random_child (f j) = some (f (j + 1))) →
      g.is_terminal (f k) = true → k < fuel →
      simulateLoop g (f 0) inv fuel =
        .ok (if (if k % 2 = 0 then inv else !inv) then 1 - g.reward (f k)
             else g.reward (f k)) := by
  induction k generalizing f with
  | zero =>
    intro inv fuel _ hterm hfuel
    obtain ⟨m, rfl⟩ : ∃ m, fuel = m + 1 := ⟨fuel - 1, by omega⟩
    simp [simulateLoop, hterm]
  | succ k ih =>
    intro inv fuel hstep hterm hfuel
    obtain ⟨m, rfl⟩ : ∃ m, fuel = m + 1 := ⟨fuel - 1, by omega⟩
    have h0 := hstep 0 (by omega)
    have hrec := ih (fun j => f (j + 1)) (!inv) m
      (fun j hj => hstep (j + 1) (by omega)) hterm (by omega)
    have hstep1 : simulateLoop g (f 0) inv (m + 1) =
        simulateLoop g (f 1) (!inv) m := by
      simp [simulateLoop, h0.1, h0.2]
    rw [hstep1]
    have hb : (if k % 2 = 0 then !inv else !!inv) =
        (if (k + 1) % 2 = 0 then inv else !inv) := by
      by_cases hpar : k % 2 = 0
      · rw [if_pos hpar, if_neg (by omega)]
      · rw [if_neg hpar, if_pos (by omega), Bool.not_not]
    exact hrec.trans (by rw [hb])

/-- C4: from a leaf whose random playout reaches a terminal state after `k`
steps (each step given by `find_random_child`), `_simulate` returns
`1 - reward()` of that terminal state when `k` is even — in particular
`1 - leaf.reward()` when the leaf is itself terminal (`k = 0`) — and the
raw `reward()` when `k` is odd, matching the invert flag that starts true
and toggles once per step. -/
theorem simulate_inverts_by_parity (g : Game σ) (t : MCTS σ) (f : ℕ → σ)
    (k fuel : ℕ)
    (hstep : ∀ j < k, g.is_terminal (f j) = false ∧
      g.find_random_child (f j) = some (f (j + 1)))
    (hterm : g.is_terminal (f k) = true) (hfuel : k < fuel) :
    t.simulate g (f 0) fuel =
      .ok (if k % 2 = 0 then 1 - g.reward (f k) else g.reward (f k)) := by
  have h := simulateLoop_chain g f k true fuel hstep hterm hfuel
  refine h.trans ?_
  by_cases hpar : k % 2 = 0 <;> simp [hpar]

/-- A chain contract: state `n` is terminal iff `1 ≤ n`, steps go `n ↦ n+1`,
terminal reward `1`. -/
def gameD : Game ℕ :=
  { find_children := fun _ => []
    find_random_child := fun n => some (n + 1)
    is_terminal := fun n => decide (1 ≤ n)
    reward := fun _ => 1 }

/-- C4 witness: the playout `0 → 1` takes one (odd) step, so the reward of
the terminal state `1` is returned raw. -/
theorem simulate_inverts_by_parity_witness :
    (∀ j < 1, gameD.is_terminal ((fun j => j) j) = false ∧
      gameD.find_random_child ((fun j => j) j) = some ((fun j => j) (j + 1))) ∧
    gameD.is_terminal ((fun j => j) 1) = true ∧ 1 < 2 ∧
    (MCTS.init (σ := ℕ) 1).simulate gameD ((fun j => j) 0) 2 =
      .ok (if 1 % 2 = 0 then 1 - gameD.reward ((fun j => j) 1)
           else gameD.reward ((fun j => j) 1)) :=
  ⟨by decide, by decide, by decide,
   simulate_inverts_by_parity gameD (MCTS.init 1) (fun j => j) 1 2
     (by decide) (by decide) (by decide)⟩

/-! ### Expansion lemmas -/

theorem expand_of_mem (g : Game σ) (t : MCTS σ) (n : σ)
    (h : dMem t.children n = true) : t.expand g n = t := by
  simp [MCTS.expand, h]

theorem expand_of_not_mem (g : Game σ) (t : MCTS σ) (n : σ)
    (h : ¬ dMem t.children n = true) :
    t.expand g n =
      { t with children := t.children ++ [(n, g.find_children n)]
               fc := t.fc ++ [n] } := by
  simp [MCTS.expand, h]

theorem dMem_expand_self (g : Game σ) (t : MCTS σ) (n : σ) :
    dMem (t.expand g n).children n = true := by
  by_cases h : dMem t.children n
  · rw [expand_of_mem g t n h]; exact h
  · rw [expand_of_not_mem g t n h]
    have hf : (dFind t.children n).isSome = false := by
      simpa [dMem] using h
    unfold dMem
    rw [dFind_append_single, hf]
    simp

theorem expand_preserves_stats (g : Game σ) (t : MCTS σ) (n : σ) :
    (t.expand g n).N = t.N ∧ (t.expand g n).Q = t.Q := by
  by_cases h : dMem t.children n
  · rw [expand_of_mem g t n h]; exact ⟨rfl, rfl⟩
  · rw [expand_of_not_mem g t n h]; exact ⟨rfl, rfl⟩

theorem expand_expand (g : Game σ) (t : MCTS σ) (n : σ) :
    (t.expand g n).expand g n = t.expand g n :=
  expand_of_mem g (t.expand g n) n (dMem_expand_self g t n)

/-! ### The ghost invocation log: `find_children` is called at most once
per state over an engine lifetime -/

/-- A call to the engine's public API (plus direct `_expand` calls). -/
inductive Op (σ : Type) where
  | rollout (s : σ) (fuel : ℕ)
  | chooseMove (s : σ)
  | expandNode (s : σ)

/-- Run one API call, keeping the engine it leaves behind. -/
def runOp (g : Game σ) (t : MCTS σ) : Op σ → MCTS σ
  | .rollout s fuel => (t.do_rollout g s fuel).2
  | .chooseMove s => (t.choose g s).2
  | .expandNode s => t.expand g s

/-- Run a sequence of API calls from an engine. -/
def runOps (g : Game σ) (t : MCTS σ) (ops : List (Op σ)) : MCTS σ :=
  ops.foldl (runOp g) t

/-- Invariant tying the ghost log to the `children` dict: the log has no
duplicates and holds exactly the expanded states. -/
def FcInv (t : MCTS σ) : Prop :=
  t.fc.Nodup ∧ ∀ s, s ∈ t.fc ↔ dMem t.children s = true

theorem fcInv_expand (g : Game σ) (t : MCTS σ) (n : σ) (h : FcInv t) :
    FcInv (t.expand g n) := by
  by_cases hm : dMem t.children n
  · rw [expand_of_mem g t n hm]; exact h
  · have hnotin : n ∉ t.fc := fun hin => hm ((h.2 n).mp hin)
    rw [expand_of_not_mem g t n hm]
    constructor
    · exact List.Nodup.append h.1 (List.nodup_singleton n)
        (List.disjoint_singleton.mpr hnotin)
    · intro s
      simp only [List.mem_append, List.mem_singleton]
      unfold dMem
      rw [dFind_append_single]
      by_cases hds : dMem t.children s
      · have ht : (dFind t.children s).isSome = true := hds
        rw [if_pos ht]
        exact ⟨fun _ => hds, fun _ => Or.inl ((h.2 s).mpr hds)⟩
      · have hf : (dFind t.children s).isSome = false := by
          simpa [dMem] using hds
        rw [if_neg (by simp [hf])]
        by_cases hsn : s = n
        · subst hsn
          simp
        · rw [if_neg hsn]
          simp only [Option.isSome_none]
          constructor
          · rintro (hin | rfl)
            · exact absurd ((h.2 s).mp hin) hds
            · exact absurd rfl hsn
          · intro hfalse
            exact absurd hfalse (by simp)

theorem fcInv_backpropagate (t : MCTS σ) (path : List σ) (r : ℚ)
    (h : FcInv t) : FcInv (t.backpropagate path r) := by
  show FcInv (backpropList t path.reverse r)
  have hf := backpropList_frame t path.reverse r
  exact ⟨hf.2.1 ▸ h.1, fun s => by rw [hf.2.1, hf.1]; exact h.2 s⟩

theorem fcInv_choose (g : Game σ) (t : MCTS σ) (s : σ) (h : FcInv t) :
    FcInv ((t.choose g s).2) := by
  have hc := choose_snd_frame g t s
  exact ⟨hc.2.2 ▸ h.1, fun x => by rw [hc.2.2, hc.2.1]; exact h.2 x⟩

theorem fcInv_rollout (g : Game σ) (t : MCTS σ) (s : σ) (fuel : ℕ)
    (h : FcInv t) : FcInv ((t.do_rollout g s fuel).2) := by
  cases hsel : t.select s with
  | error e => simpa [MCTS.do_rollout, hsel] using h
  | ok path =>
    cases hlast : path.getLast? with
    | none => simpa [MCTS.do_rollout, hsel, hlast] using h
    | some leaf =>
      have h1 : FcInv (t.expand g leaf) := fcInv_expand g t leaf h
      cases hsim : (t.expand g leaf).simulate g leaf fuel with
      | error e => simpa [MCTS.do_rollout, hsel, hlast, hsim] using h1
      | ok r =>
        simpa [MCTS.do_rollout, hsel, hlast, hsim] using
          fcInv_backpropagate (t.expand g leaf) path r h1

theorem runOp_fcInv (g : Game σ) (t : MCTS σ) (op : Op σ) (h : FcInv t) :
    FcInv (runOp g t op) := by
  cases op with
  | rollout s fuel => exact fcInv_rollout g t s fuel h
  | chooseMove s => exact fcInv_choose g t s h
  | expandNode s => exact fcInv_expand g t s h

theorem runOps_fcInv (g : Game σ) (t : MCTS σ) (ops : List (Op σ))
    (h : FcInv t) : FcInv (runOps g t ops) := by
  induction ops generalizing t with
  | nil => exact h
  | cons op ops ih => exact ih (runOp g t op) (runOp_fcInv g t op h)

theorem fcInv_init (ew : ℝ) : FcInv (MCTS.init (σ := σ) ew) := by
  constructor
  · exact List.nodup_nil
  · intro s
    simp [MCTS.init, dMem, dFind]

/-! ### Claim C7 -/

/-- C7: expansion is idempotent — a second `_expand` of an expanded state
is a no-op leaving the stored `children` entry identical — `_expand` never
changes `N` or `Q` of any state, and over any engine lifetime (any sequence
of API calls run from a fresh engine) `find_children` is invoked at most
once per state: the ghost invocation log stays duplicate-free. -/
theorem expand_idempotent_once (g : Game σ) (t : MCTS σ) (n : σ) (ew : ℝ)
    (ops : List (Op σ)) :
    (t.expand g n).expand g n = t.expand g n ∧
    ((t.expand g n).N = t.N ∧ (t.expand g n).Q = t.Q) ∧
    (runOps g (MCTS.init ew) ops).fc.Nodup :=
  ⟨expand_expand g t n, expand_preserves_stats g t n,
   (runOps_fcInv g (MCTS.init ew) ops (fcInv_init ew)).1⟩

/-! ### Claim C9 -/

theorem backprop_single (t : MCTS σ) (s : σ) (r : ℚ) :
    (t.backpropagate [s] r).N = dAdd t.N s 1 ∧
    (t.backpropagate [s] r).Q = dAdd t.Q s r ∧
    (t.backpropagate [s] r).children = t.children :=
  ⟨rfl, rfl, rfl⟩

theorem dFind_append_self_of_none (l : List (σ × α)) (s : σ) (v : α)
    (h : dFind l s = none) : dFind (l ++ [(s, v)]) s = some v := by
  rw [dFind_append_single, h]
  simp

theorem dFind_append_ne (l : List (σ × α)) (s x : σ) (v : α) (hx : x ≠ s) :
    dFind (l ++ [(s, v)]) x = dFind l x := by
  rw [dFind_append_single]
  cases hfx : dFind l x with
  | none => simp [hx]
  | some w => simp

/-- C9: `do_rollout` accepts a terminal state `s` whose `find_children`
is empty without any terminality check: it completes normally, stores the
empty children set for `s` if `s` was not yet expanded, adds one visit to
`s` and `1 - s.reward()` to its accumulated reward, and leaves every other
state's statistics and children entry unchanged.  (The hypothesis on
`children` says the engine's entry for `s`, if any, is the one expansion
would have stored — true of every engine the API can produce.) -/
theorem do_rollout_terminal_ok (g : Game σ) (t : MCTS σ) (s : σ) (fuel : ℕ)
    (hterm : g.is_terminal s = true) (hkids : g.find_children s = [])
    (hcons : dFind t.children s = none ∨ dFind t.children s = some [])
    (hfuel : 0 < fuel) :
    (t.do_rollout g s fuel).1 = .ok () ∧
    dGetD (t.do_rollout g s fuel).2.N s 0 = dGetD t.N s 0 + 1 ∧
    dGetD (t.do_rollout g s fuel).2.Q s 0 =
      dGetD t.Q s 0 + (1 - g.reward s) ∧
    (∀ x, x ≠ s →
      dGetD (t.do_rollout g s fuel).2.N x 0 = dGetD t.N x 0 ∧
      dGetD (t.do_rollout g s fuel).2.Q x 0 = dGetD t.Q x 0) ∧
    dFind (t.do_rollout g s fuel).2.children s = some [] ∧
    (∀ x, x ≠ s →
      dFind (t.do_rollout g s fuel).2.children x = dFind t.children x) := by
  obtain ⟨m, rfl⟩ : ∃ m, fuel = m + 1 := ⟨fuel - 1, by omega⟩
  have hsel : t.select s = .ok [s] := by
    rcases hcons with hc | hc <;> simp [MCTS.select, hc]
  have hsim : ∀ t1 : MCTS σ, t1.simulate g s (m + 1) =
      .ok (1 - g.reward s) := by
    intro t1
    simp [MCTS.simulate, simulateLoop, hterm]
  rcases hcons with hc | hc
  · -- s not yet expanded: expansion appends the empty children entry
    have hnm : ¬ dMem t.children s = true := by simp [dMem, hc]
    have hexp : t.expand g s =
        { t with children := t.children ++ [(s, [])],
                 fc := t.fc ++ [s] } := by
      rw [expand_of_not_mem g t s hnm, hkids]
    have hroll : t.do_rollout g s (m + 1) =
        (.ok (),
          ({ t with children := t.children ++ [(s, [])],
                    fc := t.fc ++ [s] } : MCTS σ).backpropagate [s]
            (1 - g.reward s)) := by
      simp [MCTS.do_rollout, hsel, hexp, hsim]
    rw [hroll]
    refine ⟨rfl, ?_, ?_, ?_, ?_, ?_⟩
    · rw [(backprop_single _ s (1 - g.reward s)).1]
      exact dGetD_dAdd_self t.N s 1
    · rw [(backprop_single _ s (1 - g.reward s)).2.1]
      exact dGetD_dAdd_self t.Q s (1 - g.reward s)
    · intro x hx
      constructor
      · rw [(backprop_single _ s (1 - g.reward s)).1]
        exact dGetD_dAdd_ne t.N s x 1 hx
      · rw [(backprop_single _ s (1 - g.reward s)).2.1]
        exact dGetD_dAdd_ne t.Q s x (1 - g.reward s) hx
    · rw [(backprop_single _ s (1 - g.reward s)).2.2]
      exact dFind_append_self_of_none t.children s [] hc
    · intro x hx
      rw [(backprop_single _ s (1 - g.reward s)).2.2]
      exact dFind_append_ne t.children s x [] hx
  · -- s already expanded with the empty children set: expansion is a no-op
    have hm : dMem t.children s = true := by simp [dMem, hc]
    have hexp : t.expand g s = t := expand_of_mem g t s hm
    have hroll : t.do_rollout g s (m + 1) =
        (.ok (), t.backpropagate [s] (1 - g.reward s)) := by
      simp [MCTS.do_rollout, hsel, hexp, hsim]
    rw [hroll]
    refine ⟨rfl, ?_, ?_, ?_, ?_, ?_⟩
    · rw [(backprop_single t s (1 - g.reward s)).1]
      exact dGetD_dAdd_self t.N s 1
    · rw [(backprop_single t s (1 - g.reward s)).2.1]
      exact dGetD_dAdd_self t.Q s (1 - g.reward s)
    · intro x hx
      constructor
      · rw [(backprop_single t s (1 - g.reward s)).1]
        exact dGetD_dAdd_ne t.N s x 1 hx
      · rw [(backprop_single t s (1 - g.reward s)).2.1]
        exact dGetD_dAdd_ne t.Q s x (1 - g.reward s) hx
    · rw [(backprop_single t s (1 - g.reward s)).2.2]
      exact hc
    · intro x _
      rw [(backprop_single t s (1 - g.reward s)).2.2]

/-- C9 witness: a fresh engine and a terminal state with empty children. -/
theorem do_rollout_terminal_ok_witness :
    gameB.is_terminal 0 = true ∧ gameB.find_children 0 = [] ∧
    (dFind (MCTS.init (σ := ℕ) 1).children 0 = none ∨
      dFind (MCTS.init (σ := ℕ) 1).children 0 = some []) ∧ 0 < 1 ∧
    ((MCTS.init 1).do_rollout gameB 0 1).1 = .ok () ∧
    dGetD ((MCTS.init 1).do_rollout gameB 0 1).2.N 0 0 =
      dGetD (MCTS.init (σ := ℕ) 1).N 0 0 + 1 :=
  ⟨rfl, rfl, Or.inl rfl, by decide,
   (do_rollout_terminal_ok gameB (MCTS.init 1) 0 1 rfl rfl (Or.inl rfl)
      (by decide)).1,
   (do_rollout_terminal_ok gameB (MCTS.init 1) 0 1 rfl rfl (Or.inl rfl)
      (by decide)).2.1⟩

/-! ### Claim C1 -/

/-- An engine in which state `0` is expanded with the single child `1`,
and `1` is itself expanded (empty children set), so the select phase must
descend a layer by UCT. -/
def engineE : MCTS ℕ :=
  ⟨[], [], [(0, [1]), (1, [])], 1, []⟩

/-- C1 (code bug): when the select phase reaches a node all of whose
recorded children are already expanded, the code executes
`node = self._uct_select(node)`, but the class defines the method as
`uct_select`, so `_select` raises `AttributeError` instead of descending
to the UCT-maximizing child, and `do_rollout` propagates that error. -/
theorem select_descent_raises :
    engineE.select 0 = .error .attributeError ∧
    engineE.do_rollout gameB 0 1 = (.error .attributeError, engineE) :=
  ⟨rfl, rfl⟩

/-! ### Claim C10 -/

/-- C10: `uct_select` on a node with a positive visit count whose recorded
children are all expanded raises `ZeroDivisionError` (at `Q[n] / N[n]`)
instead of returning a child, as soon as at least one recorded child has a
zero visit count. -/
theorem uct_select_zero_visit_child_raises (t : MCTS σ) (node : σ)
    (cs : List σ) (hfind : dFind t.children node = some cs)
    (hall : ∀ c ∈ cs, dMem t.children c = true)
    (hN : 0 < dGetD t.N node 0)
    (hzero : ∃ c ∈ cs, dGetD t.N c 0 = 0) :
    t.uct_select node = .error .zeroDivisionError := by
  cases cs with
  | nil => simp at hzero
  | cons x xs =>
    have hany : (x :: xs).any (fun c => decide (dGetD t.N c 0 = 0)) = true := by
      rw [List.any_eq_true]
      obtain ⟨c, hc, hc0⟩ := hzero
      exact ⟨c, hc, by simpa using hc0⟩
    simp only [MCTS.uct_select, hfind]
    rw [if_neg (not_not.mpr hall), if_neg (Nat.pos_iff_ne_zero.mp hN),
      if_pos hany]

/-- An engine where node `0` has one visit and its recorded (expanded)
child `1` has none. -/
def engineF : MCTS ℕ :=
  ⟨[], [(0, 1)], [(0, [1]), (1, [])], 1, []⟩

/-- C10 witness: the concrete zero-visit child makes `uct_select` raise. -/
theorem uct_select_zero_visit_child_raises_witness :
    dFind engineF.children 0 = some [1] ∧
    (∀ c ∈ [1], dMem engineF.children c = true) ∧
    0 < dGetD engineF.N 0 0 ∧
    (∃ c ∈ [1], dGetD engineF.N c 0 = 0) ∧
    engineF.uct_select 0 = .error .zeroDivisionError :=
  ⟨by decide, by decide, by decide, by decide,
   uct_select_zero_visit_child_raises engineF 0 [1] (by decide) (by decide)
     (by decide) (by decide)⟩

/-! ### Claim C8 -/

/-- C8: with the node's visit count, every child's visit count and every
other child's reward held fixed, strictly increasing a child's accumulated
reward strictly increases its UCT score, and its standing against any
other child never worsens: any child it scored at least as high as before,
it still scores at least as high as after the increase. -/
theorem uct_monotone_in_reward (t t' : MCTS σ) (node c : σ)
    (hN : t'.N = t.N) (hew : t'.exploration_weight = t.exploration_weight)
    (hQ : ∀ d, d ≠ c → dGetD t'.Q d 0 = dGetD t.Q d 0)
    (hQc : dGetD t.Q c 0 < dGetD t'.Q c 0)
    (hnode : 0 < dGetD t.N node 0)
    (hc : 0 < dGetD t.N c 0) :
    t.uctVal node c < t'.uctVal node c ∧
    ∀ d, d ≠ c → t'.uctVal node d = t.uctVal node d ∧
      (t.uctVal node d ≤ t.uctVal node c →
        t'.uctVal node d ≤ t'.uctVal node c) := by
  have hn : (0 : ℝ) < ((dGetD t.N c 0 : ℕ) : ℝ) := by
    exact_mod_cast hc
  have hq : ((dGetD t.Q c 0 : ℚ) : ℝ) < ((dGetD t'.Q c 0 : ℚ) : ℝ) := by
    exact_mod_cast hQc
  have hlt : t.uctVal node c < t'.uctVal node c := by
    unfold MCTS.uctVal
    rw [hN, hew]
    exact add_lt_add_right ((div_lt_div_right hn).mpr hq) _
  refine ⟨hlt, fun d hd => ?_⟩
  have heq : t'.uctVal node d = t.uctVal node d := by
    unfold MCTS.uctVal
    rw [hN, hew, hQ d hd]
  exact ⟨heq, fun hle => heq ▸ le_trans hle (le_of_lt hlt)⟩

/-- An engine where node `0` and its child `1` each have one visit; the
child's total reward is `0`. -/
def engineG : MCTS ℕ :=
  ⟨[(1, 0)], [(0, 1), (1, 1)], [(0, [1])], 1, [0]⟩

/-- `engineG` after one unit of extra reward for child `1`. -/
def engineH : MCTS ℕ :=
  ⟨[(1, 1)], [(0, 1), (1, 1)], [(0, [1])], 1, [0]⟩

/-- C8 witness: the two concrete engines differing only in child `1`'s
total reward. -/
theorem uct_monotone_in_reward_witness :
    engineH.N = engineG.N ∧
    engineH.exploration_weight = engineG.exploration_weight ∧
    (∀ d : ℕ, d ≠ 1 → dGetD engineH.Q d 0 = dGetD engineG.Q d 0) ∧
    dGetD engineG.Q 1 0 < dGetD engineH.Q 1 0 ∧
    0 < dGetD engineG.N 0 0 ∧ 0 < dGetD engineG.N 1 0 ∧
    (engineG.uctVal 0 1 < engineH.uctVal 0 1 ∧
      ∀ d, d ≠ 1 → engineH.uctVal 0 d = engineG.uctVal 0 d ∧
        (engineG.uctVal 0 d ≤ engineG.uctVal 0 1 →
          engineH.uctVal 0 d ≤ engineH.uctVal 0 1)) := by
  have hQ : ∀ d : ℕ, d ≠ 1 → dGetD engineH.Q d 0 = dGetD engineG.Q d 0 := by
    intro d hd
    have h1 : ¬((1 : ℕ) = d) := fun h => hd h.symm
    simp [engineH, engineG, dGetD, dFind, h1]
  refine ⟨rfl, rfl, hQ, by decide, by decide, by decide, ?_⟩
  exact uct_monotone_in_reward engineG engineH 0 1 rfl rfl hQ (by decide)
    (by decide) (by decide)

end MctsSpec
